import Mathlib

/-!
Verification of the dynamic protobuf value engine (src/value.rs).

The development shallowly embeds the Rust source: machine integers are
represented by their bit patterns as natural numbers (with explicit
reductions modulo powers of two where the machine would wrap or
truncate), byte streams are lists of naturals below 256, and fallible
operations return explicit result values.  The wire codec and the
descriptor/error types are external collaborators of value.rs (they
live in the protobuf crate and in sibling modules that are not part of
the analysed source); they are modelled from the specification's
contracts for them, as indicated by doc comments below.
-/

namespace SerdeProto

/-- Wire types of the binary format (3-bit code in each tag). -/
inductive WireType where
  | varint
  | fixed64
  | lengthDelimited
  | startGroup
  | endGroup
  | fixed32
  deriving DecidableEq, Repr

/-- Numeric 3-bit code of a wire type. -/
def WireType.code : WireType → Nat
  | .varint => 0
  | .fixed64 => 1
  | .lengthDelimited => 2
  | .startGroup => 3
  | .endGroup => 4
  | .fixed32 => 5

/-- Wire type from its 3-bit code. -/
def WireType.ofCode : Nat → Option WireType
  | 0 => some .varint
  | 1 => some .fixed64
  | 2 => some .lengthDelimited
  | 3 => some .startGroup
  | 4 => some .endGroup
  | 5 => some .fixed32
  | _ => none

/-- Modelled from the spec: the concrete error-value type is an external
collaborator (module error of this repository, not under analysis); the
spec's error taxonomy lists bad-wire-type, unresolved enum/message
references, and underlying codec errors (malformed varints, truncated
streams, limit violations), each a single typed error value. -/
inductive Err where
  | badWireType (wt : WireType)
  | unknownEnum (name : String)
  | unknownMessage (name : String)
  | truncated
  | incorrectTag
  deriving DecidableEq, Repr

/-- Modelled from the spec: minimal-length base-128 varint encoding
(7 payload bits per byte, continuation bit signals more bytes), as
produced by the wire codec collaborator.  The fuel argument bounds the
output at the collaborator's ten-byte maximum for 64-bit values. -/
def varintEncAux : Nat → Nat → List Nat
  | 0, _ => []
  | fuel + 1, n => if n < 128 then [n] else (n % 128 + 128) :: varintEncAux fuel (n / 128)

/-- Minimal varint encoding of a value below 2^64 (at most ten bytes). -/
def varintEnc (n : Nat) : List Nat :=
  varintEncAux 10 n

/-- Byte length of the minimal varint encoding; the collaborator's size
helpers (raw_varint32_size and friends) compute exactly this. -/
def varintLen (n : Nat) : Nat :=
  (varintEnc n).length

/-- Modelled from the spec: the wire codec's varint reader.  It consumes
up to ten bytes, accumulating 7 payload bits per byte, truncates the
accumulated value to 64 bits, and fails on a truncated stream or on an
unterminated ten-byte run. -/
def readVarintAux : Nat → Nat → Nat → List Nat → Except Err (Nat × List Nat)
  | 0, _, _, _ => .error .truncated
  | _ + 1, _, _, [] => .error .truncated
  | fuel + 1, shift, acc, b :: rest =>
    if b < 128 then .ok ((acc + b * 2 ^ shift) % 2 ^ 64, rest)
    else readVarintAux fuel (shift + 7) (acc + b % 128 * 2 ^ shift) rest

/-- Reads one 64-bit varint from the stream. -/
def readRawVarint64 (l : List Nat) : Except Err (Nat × List Nat) :=
  readVarintAux 10 0 0 l

/-- Reads a varint and truncates it to 32 bits, as the collaborator's
read_raw_varint32 does. -/
def readRawVarint32 (l : List Nat) : Except Err (Nat × List Nat) :=
  match readRawVarint64 l with
  | .ok (v, rest) => .ok (v % 2 ^ 32, rest)
  | .error e => .error e

/-- Little-endian bytes of a 32-bit value (bit pattern as a natural). -/
def le32 (n : Nat) : List Nat :=
  [n % 256, n / 256 % 256, n / 65536 % 256, n / 16777216 % 256]

/-- Little-endian bytes of a 64-bit value (bit pattern as a natural). -/
def le64 (n : Nat) : List Nat :=
  le32 (n % 4294967296) ++ le32 (n / 4294967296)

/-- Modelled from the spec: the wire codec's fixed 4-byte little-endian
reader. -/
def readFixed32 : List Nat → Except Err (Nat × List Nat)
  | b0 :: b1 :: b2 :: b3 :: rest =>
    .ok (b0 + 256 * b1 + 65536 * b2 + 16777216 * b3, rest)
  | _ => .error .truncated

/-- Modelled from the spec: the wire codec's fixed 8-byte little-endian
reader. -/
def readFixed64 (l : List Nat) : Except Err (Nat × List Nat) :=
  match readFixed32 l with
  | .ok (lo, rest) =>
    match readFixed32 rest with
    | .ok (hi, rest2) => .ok (lo + 4294967296 * hi, rest2)
    | .error e => .error e
  | .error e => .error e

/-- Sign extension of a 32-bit pattern to a 64-bit pattern (the i32 to
i64 to u64 cast the collaborator performs before varint-encoding an
int32 or enum value). -/
def signExtend32 (n : Nat) : Nat :=
  if n < 2 ^ 31 then n else n + (2 ^ 64 - 2 ^ 32)

/-- Zigzag encoding of a 32-bit pattern (encode_zig_zag_32). -/
def zigzag32 (n : Nat) : Nat :=
  if n < 2 ^ 31 then 2 * n else 2 * (2 ^ 32 - n) - 1

/-- Zigzag decoding to a 32-bit pattern (decode_zig_zag_32). -/
def unzigzag32 (n : Nat) : Nat :=
  if n % 2 = 0 then n / 2 else 2 ^ 32 - (n / 2 + 1)

/-- Zigzag encoding of a 64-bit pattern (encode_zig_zag_64). -/
def zigzag64 (n : Nat) : Nat :=
  if n < 2 ^ 63 then 2 * n else 2 * (2 ^ 64 - n) - 1

/-- Zigzag decoding to a 64-bit pattern (decode_zig_zag_64). -/
def unzigzag64 (n : Nat) : Nat :=
  if n % 2 = 0 then n / 2 else 2 ^ 64 - (n / 2 + 1)

/-- Encoded tag: varint of the field number shifted left by three bits
(on a 32-bit register) joined with the wire-type code. -/
def tagEnc (number : Nat) (wt : WireType) : List Nat :=
  varintEnc (number * 8 % 2 ^ 32 + wt.code)

/-- Modelled from the spec: the collaborator's tag reader
(read_tag_unpack).  It reads one 32-bit varint, rejects a zero field
number and the two reserved wire-type codes, and unpacks number and
wire type. -/
def readTag (l : List Nat) : Except Err (Nat × WireType × List Nat) :=
  match readRawVarint32 l with
  | .ok (t, rest) =>
    if t / 8 = 0 then .error .incorrectTag
    else
      match WireType.ofCode (t % 8) with
      | some wt => .ok (t / 8, wt, rest)
      | none => .error .incorrectTag
  | .error e => .error e

mutual

/-- Modelled from the spec: the collaborator's skip/read of a single
unknown field value (read_unknown_or_skip_group).  Varint, fixed and
length-delimited payloads are consumed; a group start is skipped
best-effort up to the matching group end (the fuel bounds the nesting
walk); a lone group end is a tag error. -/
def skipValue (fuel : Nat) : WireType → List Nat → Except Err (List Nat)
  | .varint, l =>
    match readRawVarint64 l with
    | .ok (_, rest) => .ok rest
    | .error e => .error e
  | .fixed32, l =>
    match readFixed32 l with
    | .ok (_, rest) => .ok rest
    | .error e => .error e
  | .fixed64, l =>
    match readFixed64 l with
    | .ok (_, rest) => .ok rest
    | .error e => .error e
  | .lengthDelimited, l =>
    match readRawVarint64 l with
    | .ok (len, rest) => if len ≤ rest.length then .ok (rest.drop len) else .error .truncated
    | .error e => .error e
  | .startGroup, l =>
    match fuel with
    | 0 => .error .truncated
    | fl + 1 => skipGroupLoop fl l
  | .endGroup, _ => .error .incorrectTag

/-- Modelled from the spec: the tag-walking loop used to skip a group,
consuming fields until the matching group-end tag. -/
def skipGroupLoop : Nat → List Nat → Except Err (List Nat)
  | 0, _ => .error .truncated
  | fuel + 1, l =>
    match readTag l with
    | .ok (_, .endGroup, rest) => .ok rest
    | .ok (_, wt, rest) =>
      match skipValue fuel wt rest with
      | .ok rest2 => skipGroupLoop fuel rest2
      | .error e => .error e
    | .error e => .error e

end

mutual

/-- Runtime protobuf value (enum Value of value.rs).  The float
constructors of the source (F32/F64) are represented by their IEEE-754
bit patterns; 32- and 64-bit integers are represented by their bit
patterns as naturals; a Rust String is represented by its UTF-8 bytes. -/
inductive Value where
  | bool (b : Bool)
  | i32 (n : Nat)
  | i64 (n : Nat)
  | u32 (n : Nat)
  | u64 (n : Nat)
  | f32 (bits : Nat)
  | f64 (bits : Nat)
  | bytes (bs : List Nat)
  | string (s : List Nat)
  | enum (n : Nat)
  | message (m : Message)

inductive Field where
  | singular (v : Option Value)
  | repeated (vs : List Value)

inductive Message where
  | mk (fields : List (Nat × Field)) (unknown : List Nat)

end

/-- Known fields of a message; the source's BTreeMap is represented by
an association list kept sorted by strictly ascending field number. -/
def Message.fields : Message → List (Nat × Field)
  | .mk fields _ => fields

/-- Preserved unknown-field bytes of a message.  Modelled from the
spec: an opaque buffer of raw bytes for field numbers not present in
the schema, preserved verbatim in original encounter order (the
UnknownFields collaborator). -/
def Message.unknown : Message → List Nat
  | .mk _ unknown => unknown

/-- Lookup in the sorted association list (BTreeMap get). -/
def lookupField : List (Nat × Field) → Nat → Option Field
  | [], _ => none
  | (k, f) :: rest, n => if n = k then some f else lookupField rest n

/-- Insertion into the sorted association list (BTreeMap insert):
replaces the entry with an equal key, otherwise places the new entry
before the first larger key. -/
def insertField (n : Nat) (f : Field) : List (Nat × Field) → List (Nat × Field)
  | [] => [(n, f)]
  | (k, g) :: rest =>
    if n < k then (n, f) :: (k, g) :: rest
    else if n = k then (n, f) :: rest
    else (k, g) :: insertField n f rest

/-- Replaces field number n of the message (the in-place mutation of
the BTreeMap entry in the source). -/
def Message.withField (m : Message) (n : Nat) (f : Field) : Message :=
  .mk (insertField n f m.fields) m.unknown

/-- Appends bytes to the unknown-field buffer. -/
def Message.addUnknown (m : Message) (bs : List Nat) : Message :=
  .mk m.fields (m.unknown ++ bs)

/-- Modelled from the spec: a field's declared type as recorded in the
schema; enum and message types are referenced by name and resolved
against the descriptor set when a value is merged. -/
inductive FieldType where
  | bool
  | int32
  | int64
  | sint32
  | sint64
  | uint32
  | uint64
  | fixed32
  | fixed64
  | sfixed32
  | sfixed64
  | float
  | double
  | bytes
  | string
  | enum (name : String)
  | message (name : String)
  | group
  deriving DecidableEq, Repr

/-- Modelled from the spec: a field descriptor carries the field
number, the cardinality (is_repeated), the declared type, and the
optional declared default value. -/
structure FieldDescriptor where
  number : Nat
  isRepeated : Bool
  typ : FieldType
  defaultValue : Option Value

/-- Modelled from the spec: a message descriptor enumerates the
message type's fields. -/
structure MessageDescriptor where
  name : String
  fdList : List FieldDescriptor

/-- Modelled from the spec: the descriptor set used to resolve enum
and message type references by name. -/
structure Descriptors where
  messages : List MessageDescriptor
  enums : List String

/-- Resolved field type, the codomain of field_type(descriptors): a
scalar kind, an enum, a resolved nested message descriptor, the
unsupported group kind, or an unresolved reference. -/
inductive ResolvedType where
  | bool
  | int32
  | int64
  | sint32
  | sint64
  | uint32
  | uint64
  | fixed32
  | fixed64
  | sfixed32
  | sfixed64
  | float
  | double
  | bytes
  | string
  | enum
  | message (md : MessageDescriptor)
  | group
  | unresolvedEnum (name : String)
  | unresolvedMessage (name : String)

/-- Modelled from the spec: resolves a field's declared type against
the descriptor set; resolution failures yield the unresolved variants
that surface as typed errors when a value is merged. -/
def fieldType (descs : Descriptors) (fd : FieldDescriptor) : ResolvedType :=
  match fd.typ with
  | .bool => .bool
  | .int32 => .int32
  | .int64 => .int64
  | .sint32 => .sint32
  | .sint64 => .sint64
  | .uint32 => .uint32
  | .uint64 => .uint64
  | .fixed32 => .fixed32
  | .fixed64 => .fixed64
  | .sfixed32 => .sfixed32
  | .sfixed64 => .sfixed64
  | .float => .float
  | .double => .double
  | .bytes => .bytes
  | .string => .string
  | .enum name => if name ∈ descs.enums then .enum else .unresolvedEnum name
  | .message name =>
    match descs.messages.find? (fun md => md.name = name) with
    | some md => .message md
    | none => .unresolvedMessage name
  | .group => .group

/-- Modelled from the spec: field lookup by number in a message
descriptor (field_by_number). -/
def MessageDescriptor.fieldByNumber (md : MessageDescriptor) (n : Nat) : Option FieldDescriptor :=
  md.fdList.find? (fun fd => fd.number = n)

/-- Field::new of value.rs: a repeated field starts as an empty
sequence; a singular field starts empty (None). -/
def Field.new (fd : FieldDescriptor) : Field :=
  if fd.isRepeated then .repeated [] else .singular none

/-- Message::new of value.rs: materializes one entry per schema field,
repeated fields empty, singular fields holding the schema's declared
default value (or none). -/
def Message.new (md : MessageDescriptor) : Message :=
  .mk
    (md.fdList.foldl
      (fun acc fd =>
        insertField fd.number
          (if fd.isRepeated then .repeated [] else .singular fd.defaultValue) acc)
      [])
    []

/-- Size in bytes of an encoded tag (the collaborator's tag_size:
varint size of the field number shifted left by three on a 32-bit
register). -/
def tagSize (number : Nat) : Nat :=
  varintLen (number * 8 % 2 ^ 32)

/-- Size of a tag plus a varint-encoded 64-bit value (the
collaborator's value_size at varint wire type, after the value has
been widened to its u64 image). -/
def varintValueSize (number : Nat) (v : Nat) : Nat :=
  tagSize number + varintLen v

/-- Size of a tag plus a length-delimited byte payload (the
collaborator's bytes_size / string_size: tag, minimal varint of the
length, then the payload). -/
def bytesSize (number : Nat) (bs : List Nat) : Nat :=
  tagSize number + varintLen bs.length + bs.length

mutual

/-- Size contribution of one singular value under the given field
number: the body of Field::size_with_tag of value.rs for the
Singular(Some(v)) arms.  The Repeated arm of the source re-enters
these same arms one element at a time (via the Singular(Some(x))
wrapper it builds), so the per-value dispatch is shared here.  Note
the source's quirks are kept: a true Bool contributes the constant 2;
zero-pattern integers and enums contribute 0; F32/F64 contribute the
constants 5/9 unconditionally; Bytes/String sizes have no emptiness
check; a nested Message contributes only its own recursive size
(compute_size), without tag or length prefix. -/
def valueSizeWithTag : Nat → Value → Nat
  | _, .bool b => if b then 2 else 0
  | number, .i32 x => if x = 0 then 0 else varintValueSize number (signExtend32 x)
  | number, .i64 x => if x = 0 then 0 else varintValueSize number x
  | number, .u32 x => if x = 0 then 0 else varintValueSize number x
  | number, .u64 x => if x = 0 then 0 else varintValueSize number x
  | _, .f32 _ => 5
  | _, .f64 _ => 9
  | number, .bytes v => bytesSize number v
  | number, .string s => bytesSize number s
  | number, .enum x => if x = 0 then 0 else varintValueSize number (signExtend32 x)
  | _, .message m => Message.computeSize m

/-- Field::size_with_tag of value.rs: a repeated field sums the sizes
its elements would have as singular fields (the source wraps each
element in Singular(Some(..)) and recurses); an empty singular field
contributes 0. -/
def Field.sizeWithTag : Nat → Field → Nat
  | _, .singular none => 0
  | number, .singular (some v) => valueSizeWithTag number v
  | number, .repeated vs => valueListSize number vs

/-- Sum of the singular-path sizes of the elements of a repeated
field. -/
def valueListSize : Nat → List Value → Nat
  | _, [] => 0
  | number, v :: vs => valueSizeWithTag number v + valueListSize number vs

/-- Message::compute_size of value.rs: the sum of all field sizes plus
the unknown-field buffer size.  The source also stores the result in
the derived size cache; the cache is eliminable in this pure model
because compute_size is deterministic and write_to recomputes it
immediately before any read of the cache. -/
def Message.computeSize : Message → Nat
  | .mk fields unknown => fieldListSize fields + unknown.length

/-- Sum of the tagged sizes of the known-field entries, in map order. -/
def fieldListSize : List (Nat × Field) → Nat
  | [] => 0
  | (number, f) :: rest => Field.sizeWithTag number f + fieldListSize rest

end

mutual

/-- Bytes written for one singular value under the given field number:
the body of Field::write_to_with_tag of value.rs for the
Singular(Some(v)) arms, with the repeated_elem flag threaded through
exactly as in the source.  The Repeated arm of the source re-enters
these same arms per element with repeated_elem set (via the
Singular(Some(x)) wrapper it builds).  Note the source's quirks are
kept: the Bool arm writes the literal value true whenever it writes at
all; the Bytes arm checks only emptiness and ignores the
repeated_elem flag; a float is zero (and omitted when singular)
whenever its bit pattern compares equal to 0.0, i.e. at the two
IEEE-754 signed-zero patterns; a nested Message writes its tag, then
its recomputed size as a length prefix, then its own encoding. -/
def valueWriteWithTag : Nat → Bool → Value → List Nat
  | number, re, .bool b =>
    if b || re then tagEnc number .varint ++ varintEnc 1 else []
  | number, re, .i32 x =>
    if x ≠ 0 || re then tagEnc number .varint ++ varintEnc (signExtend32 x) else []
  | number, re, .i64 x =>
    if x ≠ 0 || re then tagEnc number .varint ++ varintEnc x else []
  | number, re, .u32 x =>
    if x ≠ 0 || re then tagEnc number .varint ++ varintEnc x else []
  | number, re, .u64 x =>
    if x ≠ 0 || re then tagEnc number .varint ++ varintEnc x else []
  | number, re, .f32 bits =>
    if ¬(bits = 0 ∨ bits = 2 ^ 31) || re then tagEnc number .fixed32 ++ le32 bits else []
  | number, re, .f64 bits =>
    if ¬(bits = 0 ∨ bits = 2 ^ 63) || re then tagEnc number .fixed64 ++ le64 bits else []
  | number, _, .bytes v =>
    if v ≠ [] then tagEnc number .lengthDelimited ++ varintEnc v.length ++ v else []
  | number, re, .string s =>
    if s ≠ [] || re then tagEnc number .lengthDelimited ++ varintEnc s.length ++ s else []
  | number, re, .enum x =>
    if x ≠ 0 || re then tagEnc number .varint ++ varintEnc (signExtend32 x) else []
  | number, _, .message m =>
    tagEnc number .lengthDelimited ++ varintEnc (Message.computeSize m) ++ Message.writeTo m

/-- Field::write_to_with_tag of value.rs. -/
def Field.writeToWithTag : Nat → Bool → Field → List Nat
  | _, _, .singular none => []
  | number, re, .singular (some v) => valueWriteWithTag number re v
  | number, _, .repeated vs => valueListWrite number vs

/-- Bytes written for the elements of a repeated field, each through
the singular path with the repeated_elem flag set. -/
def valueListWrite : Nat → List Value → List Nat
  | _, [] => []
  | number, v :: vs => valueWriteWithTag number true v ++ valueListWrite number vs

/-- Message::write_to of value.rs: recomputes sizes (a no-op in this
pure model), writes each known field in ascending field-number order,
then the unknown-field buffer verbatim. -/
def Message.writeTo : Message → List Nat
  | .mk fields unknown => fieldListWrite fields ++ unknown

/-- Bytes written for the known-field entries, in map order. -/
def fieldListWrite : List (Nat × Field) → List Nat
  | [] => []
  | (number, f) :: rest => Field.writeToWithTag number false f ++ fieldListWrite rest

end

/-- Message::write_to_bytes of value.rs: the owned-buffer wrapper
around write_to (a CodedOutputStream over a vector cannot fail, so the
result is the plain byte list). -/
def Message.writeToBytes (m : Message) : List Nat :=
  m.writeTo

/-- Outcome of a fallible merge step: success, a typed error, a panic
(the source's unimplemented! on group-typed fields is modelled as the
distinguished diverges outcome, which is neither a success value nor a
typed error), or fuel exhaustion of the model's bounded recursion
(never reached at sufficient fuel; no counterpart in the source). -/
inductive DRes (α : Type) where
  | ok (a : α)
  | err (e : Err)
  | diverges
  | nofuel

/-- Modelled from the spec: read_bool of the wire codec (a varint,
truncated to 32 bits, tested against zero). -/
def readBoolV (l : List Nat) : Except Err (Value × List Nat) :=
  match readRawVarint32 l with
  | .ok (v, rest) => .ok (.bool (v ≠ 0), rest)
  | .error e => .error e

/-- Modelled from the spec: read_int32 (varint truncated to the 32-bit
pattern). -/
def readInt32V (l : List Nat) : Except Err (Value × List Nat) :=
  match readRawVarint32 l with
  | .ok (v, rest) => .ok (.i32 v, rest)
  | .error e => .error e

/-- Modelled from the spec: read_int64. -/
def readInt64V (l : List Nat) : Except Err (Value × List Nat) :=
  match readRawVarint64 l with
  | .ok (v, rest) => .ok (.i64 v, rest)
  | .error e => .error e

/-- Modelled from the spec: read_sint32 (zigzag-decoded 32-bit varint). -/
def readSInt32V (l : List Nat) : Except Err (Value × List Nat) :=
  match readRawVarint32 l with
  | .ok (v, rest) => .ok (.i32 (unzigzag32 v), rest)
  | .error e => .error e

/-- Modelled from the spec: read_sint64 (zigzag-decoded 64-bit varint). -/
def readSInt64V (l : List Nat) : Except Err (Value × List Nat) :=
  match readRawVarint64 l with
  | .ok (v, rest) => .ok (.i64 (unzigzag64 v), rest)
  | .error e => .error e

/-- Modelled from the spec: read_uint32. -/
def readUInt32V (l : List Nat) : Except Err (Value × List Nat) :=
  match readRawVarint32 l with
  | .ok (v, rest) => .ok (.u32 v, rest)
  | .error e => .error e

/-- Modelled from the spec: read_uint64. -/
def readUInt64V (l : List Nat) : Except Err (Value × List Nat) :=
  match readRawVarint64 l with
  | .ok (v, rest) => .ok (.u64 v, rest)
  | .error e => .error e

/-- Modelled from the spec: read_fixed32. -/
def readFixed32V (l : List Nat) : Except Err (Value × List Nat) :=
  match readFixed32 l with
  | .ok (v, rest) => .ok (.u32 v, rest)
  | .error e => .error e

/-- Modelled from the spec: read_fixed64. -/
def readFixed64V (l : List Nat) : Except Err (Value × List Nat) :=
  match readFixed64 l with
  | .ok (v, rest) => .ok (.u64 v, rest)
  | .error e => .error e

/-- Modelled from the spec: read_sfixed32 (same bytes, signed pattern). -/
def readSFixed32V (l : List Nat) : Except Err (Value × List Nat) :=
  match readFixed32 l with
  | .ok (v, rest) => .ok (.i32 v, rest)
  | .error e => .error e

/-- Modelled from the spec: read_sfixed64. -/
def readSFixed64V (l : List Nat) : Except Err (Value × List Nat) :=
  match readFixed64 l with
  | .ok (v, rest) => .ok (.i64 v, rest)
  | .error e => .error e

/-- Modelled from the spec: read_float (4-byte bit pattern). -/
def readFloatV (l : List Nat) : Except Err (Value × List Nat) :=
  match readFixed32 l with
  | .ok (v, rest) => .ok (.f32 v, rest)
  | .error e => .error e

/-- Modelled from the spec: read_double (8-byte bit pattern). -/
def readDoubleV (l : List Nat) : Except Err (Value × List Nat) :=
  match readFixed64 l with
  | .ok (v, rest) => .ok (.f64 v, rest)
  | .error e => .error e

/-- Modelled from the spec: read_bytes (varint length, then that many
raw bytes, bounded by the current limit). -/
def readBytesV (l : List Nat) : Except Err (Value × List Nat) :=
  match readRawVarint32 l with
  | .ok (len, rest) =>
    if len ≤ rest.length then .ok (.bytes (rest.take len), rest.drop len)
    else .error .truncated
  | .error e => .error e

/-- Modelled from the spec: read_string.  Identical byte handling to
read_bytes; the collaborator's UTF-8 validation never fails on bytes
this engine itself produced (Rust String values are valid UTF-8 by
construction), and is not modelled. -/
def readStringV (l : List Nat) : Except Err (Value × List Nat) :=
  match readRawVarint32 l with
  | .ok (len, rest) =>
    if len ≤ rest.length then .ok (.string (rest.take len), rest.drop len)
    else .error .truncated
  | .error e => .error e

/-- Field::put of value.rs: replaces the singular slot or appends to
the repeated sequence. -/
def Field.put : Field → Value → Field
  | .singular _, v => .singular (some v)
  | .repeated r, v => .repeated (r ++ [v])

/-- Field::merge_scalar of value.rs: at the expected wire type, read
one value and put it; otherwise a bad-wire-type error, with the field
unchanged. -/
def mergeScalar (reader : List Nat → Except Err (Value × List Nat)) (expected : WireType)
    (f : Field) (actual : WireType) (input : List Nat) : Field × DRes (List Nat) :=
  if expected = actual then
    match reader input with
    | .ok (v, rest) => (f.put v, .ok rest)
    | .error e => (f, .err e)
  else (f, .err (.badWireType actual))

/-- Packed-run loop of Field::merge_packable_scalar: reads one scalar
at a time until the length-bounded run is exhausted exactly; values
put before a read error remain in the field (the source mutates in
place). -/
def packedLoop (reader : List Nat → Except Err (Value × List Nat)) :
    Nat → Field → List Nat → Field × DRes Unit
  | 0, f, _ => (f, .nofuel)
  | _ + 1, f, [] => (f, .ok ())
  | fuel + 1, f, l =>
    match reader l with
    | .ok (v, rest) => packedLoop reader fuel (f.put v) rest
    | .error e => (f, .err e)

/-- Field::merge_packable_scalar of value.rs: a length-delimited wire
type is treated as a packed run (push a limit of the declared byte
length, decode scalars until the bound is exhausted); any other wire
type falls back to the single-value scalar path, which enforces the
expected wire type. -/
def mergePackableScalar (fuel : Nat) (reader : List Nat → Except Err (Value × List Nat))
    (expected : WireType) (f : Field) (actual : WireType) (input : List Nat) :
    Field × DRes (List Nat) :=
  if actual = .lengthDelimited then
    match readRawVarint64 input with
    | .ok (len, after) =>
      if len ≤ after.length then
        match packedLoop reader fuel f (after.take len) with
        | (f1, .ok _) => (f1, .ok (after.drop len))
        | (f1, .err e) => (f1, .err e)
        | (f1, .diverges) => (f1, .diverges)
        | (f1, .nofuel) => (f1, .nofuel)
      else (f, .err .truncated)
    | .error e => (f, .err e)
  else mergeScalar reader expected f actual input

/-- Field::merge_enum of value.rs: varint wire type only; the raw
32-bit code is stored without any domain validation (open-enum
semantics). -/
def Field.mergeEnum (f : Field) (actual : WireType) (input : List Nat) :
    Field × DRes (List Nat) :=
  if actual = .varint then
    match readRawVarint32 input with
    | .ok (v, rest) => (f.put (.enum v), .ok rest)
    | .error e => (f, .err e)
  else (f, .err (.badWireType actual))

mutual

/-- Message::merge_from of value.rs: loop until the current scope's
bytes are exhausted; read a tag; a known field number dispatches to
the field's merge (the field entry being created on demand via
ensure_field / Field::new); an unknown number is consumed and its raw
bytes appended verbatim to the unknown buffer (a group-start is
skipped without preservation, per the collaborator's
read_unknown_or_skip_group).  The first error aborts the call, with
fields merged before the error left in place. -/
def Message.mergeFrom : Nat → Descriptors → MessageDescriptor → Message → List Nat →
    Message × DRes Unit
  | 0, _, _, m, _ => (m, .nofuel)
  | _ + 1, _, _, m, [] => (m, .ok ())
  | fuel + 1, descs, md, m, input =>
    match readTag input with
    | .error e => (m, .err e)
    | .ok (number, wt, after) =>
      match md.fieldByNumber number with
      | some fd =>
        match Field.mergeFrom fuel descs fd ((lookupField m.fields number).getD (Field.new fd)) wt after with
        | (f1, .ok rest) => Message.mergeFrom fuel descs md (m.withField number f1) rest
        | (f1, .err e) => (m.withField number f1, .err e)
        | (f1, .diverges) => (m.withField number f1, .diverges)
        | (_, .nofuel) => (m, .nofuel)
      | none =>
        match skipValue fuel wt after with
        | .ok rest =>
          if wt = .startGroup then
            Message.mergeFrom fuel descs md m rest
          else
            Message.mergeFrom fuel descs md
              (m.addUnknown (input.take (input.length - rest.length))) rest
        | .error e => (m, .err e)

/-- Field::merge_from of value.rs: the closed type dispatch.  Packable
scalar kinds go through merge_packable_scalar, bytes and string
through merge_scalar, enums through merge_enum, nested messages
through merge_message; a group-typed field panics (unimplemented!),
and unresolved references are typed errors. -/
def Field.mergeFrom : Nat → Descriptors → FieldDescriptor → Field → WireType → List Nat →
    Field × DRes (List Nat)
  | 0, _, _, f, _, _ => (f, .nofuel)
  | fuel + 1, descs, fd, f, wt, input =>
    match fieldType descs fd with
    | .bool => mergePackableScalar fuel readBoolV .varint f wt input
    | .int32 => mergePackableScalar fuel readInt32V .varint f wt input
    | .int64 => mergePackableScalar fuel readInt64V .varint f wt input
    | .sint32 => mergePackableScalar fuel readSInt32V .varint f wt input
    | .sint64 => mergePackableScalar fuel readSInt64V .varint f wt input
    | .uint32 => mergePackableScalar fuel readUInt32V .varint f wt input
    | .uint64 => mergePackableScalar fuel readUInt64V .varint f wt input
    | .fixed32 => mergePackableScalar fuel readFixed32V .fixed32 f wt input
    | .fixed64 => mergePackableScalar fuel readFixed64V .fixed64 f wt input
    | .sfixed32 => mergePackableScalar fuel readSFixed32V .fixed32 f wt input
    | .sfixed64 => mergePackableScalar fuel readSFixed64V .fixed64 f wt input
    | .float => mergePackableScalar fuel readFloatV .fixed32 f wt input
    | .double => mergePackableScalar fuel readDoubleV .fixed64 f wt input
    | .bytes => mergeScalar readBytesV .lengthDelimited f wt input
    | .string => mergeScalar readStringV .lengthDelimited f wt input
    | .enum => Field.mergeEnum f wt input
    | .message md2 => Field.mergeMessage fuel descs md2 f wt input
    | .group => (f, .diverges)
    | .unresolvedEnum name => (f, .err (.unknownEnum name))
    | .unresolvedMessage name => (f, .err (.unknownMessage name))

/-- Field::merge_message of value.rs: length-delimited wire type only.
The declared byte length is read first; then a singular field's slot
is taken (left empty), yielding the existing nested message to merge
into when one was held, or a fresh Message::new otherwise (a repeated
field always seeds a fresh instance and is not emptied); the bounded
payload is recursively merged, and only on success is the resulting
message put back.  An error from the length read leaves the field
unchanged; a limit violation or a recursive merge error leaves a
singular field empty. -/
def Field.mergeMessage : Nat → Descriptors → MessageDescriptor → Field → WireType → List Nat →
    Field × DRes (List Nat)
  | 0, _, _, f, _, _ => (f, .nofuel)
  | fuel + 1, descs, md, f, wt, input =>
    if wt = .lengthDelimited then
      match readRawVarint64 input with
      | .ok (len, after) =>
        let seed : Message :=
          match f with
          | .singular (some (.message m0)) => m0
          | _ => Message.new md
        let taken : Field :=
          match f with
          | .singular _ => .singular none
          | .repeated r => .repeated r
        if len ≤ after.length then
          match Message.mergeFrom fuel descs md seed (after.take len) with
          | (m1, .ok _) => (taken.put (.message m1), .ok (after.drop len))
          | (_, .err e) => (taken, .err e)
          | (_, .diverges) => (taken, .diverges)
          | (_, .nofuel) => (f, .nofuel)
        else (taken, .err .truncated)
      | .error e => (f, .err e)
    else (f, .err (.badWireType wt))

end

/-- Tests whether a value is of Message kind (the pattern the
o.take() match of Field::merge_message distinguishes). -/
def Value.isMessage : Value → Bool
  | .message _ => true
  | _ => false

/-- Packable scalar kinds: the thirteen field types that
Field::merge_from routes through merge_packable_scalar (every numeric
and bool kind; bytes, string, enum and message are not packable). -/
inductive PKind where
  | kbool
  | kint32
  | kint64
  | ksint32
  | ksint64
  | kuint32
  | kuint64
  | kfixed32
  | kfixed64
  | ksfixed32
  | ksfixed64
  | kfloat
  | kdouble
  deriving DecidableEq, Repr

/-- Declared field type of a packable scalar kind. -/
def PKind.ft : PKind → FieldType
  | .kbool => .bool
  | .kint32 => .int32
  | .kint64 => .int64
  | .ksint32 => .sint32
  | .ksint64 => .sint64
  | .kuint32 => .uint32
  | .kuint64 => .uint64
  | .kfixed32 => .fixed32
  | .kfixed64 => .fixed64
  | .ksfixed32 => .sfixed32
  | .ksfixed64 => .sfixed64
  | .kfloat => .float
  | .kdouble => .double

/-- Unpacked (per-element) wire type of a packable scalar kind, as
expected by the merge dispatch. -/
def PKind.wt : PKind → WireType
  | .kbool | .kint32 | .kint64 | .ksint32 | .ksint64 | .kuint32 | .kuint64 => .varint
  | .kfixed32 | .ksfixed32 | .kfloat => .fixed32
  | .kfixed64 | .ksfixed64 | .kdouble => .fixed64

/-- Element reader of a packable scalar kind, as passed by the merge
dispatch. -/
def PKind.readerOf : PKind → (List Nat → Except Err (Value × List Nat))
  | .kbool => readBoolV
  | .kint32 => readInt32V
  | .kint64 => readInt64V
  | .ksint32 => readSInt32V
  | .ksint64 => readSInt64V
  | .kuint32 => readUInt32V
  | .kuint64 => readUInt64V
  | .kfixed32 => readFixed32V
  | .kfixed64 => readFixed64V
  | .ksfixed32 => readSFixed32V
  | .ksfixed64 => readSFixed64V
  | .kfloat => readFloatV
  | .kdouble => readDoubleV

/-- Standard wire encoding of one element of a packable scalar kind
(the bytes a conforming encoder emits for the value, without any tag):
minimal varints, with sign extension for int32, zigzag for
sint32/sint64, and little-endian bytes for the fixed-width kinds. -/
def PKind.encElem : PKind → Value → List Nat
  | .kbool, .bool b => varintEnc (if b then 1 else 0)
  | .kint32, .i32 n => varintEnc (signExtend32 n)
  | .kint64, .i64 n => varintEnc n
  | .ksint32, .i32 n => varintEnc (zigzag32 n)
  | .ksint64, .i64 n => varintEnc (zigzag64 n)
  | .kuint32, .u32 n => varintEnc n
  | .kuint64, .u64 n => varintEnc n
  | .kfixed32, .u32 n => le32 n
  | .kfixed64, .u64 n => le64 n
  | .ksfixed32, .i32 n => le32 n
  | .ksfixed64, .i64 n => le64 n
  | .kfloat, .f32 n => le32 n
  | .kdouble, .f64 n => le64 n
  | _, _ => []

/-- Well-typedness of a value for a packable scalar kind: the matching
constructor with an in-range bit pattern. -/
def PKind.okValueB : PKind → Value → Bool
  | .kbool, .bool _ => true
  | .kint32, .i32 n => n < 2 ^ 32
  | .kint64, .i64 n => n < 2 ^ 64
  | .ksint32, .i32 n => n < 2 ^ 32
  | .ksint64, .i64 n => n < 2 ^ 64
  | .kuint32, .u32 n => n < 2 ^ 32
  | .kuint64, .u64 n => n < 2 ^ 64
  | .kfixed32, .u32 n => n < 2 ^ 32
  | .kfixed64, .u64 n => n < 2 ^ 64
  | .ksfixed32, .i32 n => n < 2 ^ 32
  | .ksfixed64, .i64 n => n < 2 ^ 64
  | .kfloat, .f32 n => n < 2 ^ 32
  | .kdouble, .f64 n => n < 2 ^ 64
  | _, _ => false

/-- Concatenated element encodings: the payload of a packed run. -/
def concatEnc (k : PKind) : List Value → List Nat
  | [] => []
  | v :: vs => k.encElem v ++ concatEnc k vs

/-- Packed wire encoding of a repeated scalar field: one tag with the
length-delimited wire type, the byte length of the run, then the
concatenated element encodings. -/
def packedEnc (k : PKind) (n : Nat) (vs : List Value) : List Nat :=
  tagEnc n .lengthDelimited ++ (varintEnc (concatEnc k vs).length ++ concatEnc k vs)

/-- Unpacked wire encoding of a repeated scalar field: one tag+value
entry per element, at the kind's own wire type. -/
def unpackedEnc (k : PKind) (n : Nat) : List Value → List Nat
  | [] => []
  | v :: vs => tagEnc n k.wt ++ (k.encElem v ++ unpackedEnc k n vs)

/-- Folding Field::put over a list of values (what a merge loop does
to one field). -/
def putAll (f : Field) (vs : List Value) : Field :=
  vs.foldl Field.put f

/-- Schema with one singular int32 field, number 1 (claims C4 and C5's
witness context). -/
def i32MD : MessageDescriptor :=
  ⟨"I", [⟨1, false, .int32, none⟩]⟩

/-- Descriptor set holding only i32MD. -/
def i32Descs : Descriptors :=
  ⟨[i32MD], []⟩

/-- Schema with one repeated int32 field, number 1. -/
def i32RepMD : MessageDescriptor :=
  ⟨"IR", [⟨1, true, .int32, none⟩]⟩

/-- Descriptor set holding only i32RepMD. -/
def i32RepDescs : Descriptors :=
  ⟨[i32RepMD], []⟩

/-- Schema with one repeated bytes field, number 1. -/
def bytesRepMD : MessageDescriptor :=
  ⟨"BR", [⟨1, true, .bytes, none⟩]⟩

/-- Descriptor set holding only bytesRepMD. -/
def bytesRepDescs : Descriptors :=
  ⟨[bytesRepMD], []⟩

/-- Message over bytesRepMD whose repeated bytes field holds one
empty element (a type-valid population of the schema). -/
def msgRepEmptyBytes : Message :=
  .mk [(1, .repeated [.bytes []])] []

/-- Message whose singular bytes field number 1 holds the empty byte
string. -/
def msgSingEmptyBytes : Message :=
  .mk [(1, .singular (some (.bytes [])))] []

/-- Message holding a single int32 field with value 5 (used nested). -/
def msgI32Five : Message :=
  .mk [(1, .singular (some (.i32 5)))] []

/-- Message whose singular message-typed field number 2 holds
msgI32Five. -/
def msgNested : Message :=
  .mk [(2, .singular (some (.message msgI32Five)))] []

/-- Schema with one singular nested-message field (type name Inner)
under field number 1, together with the Inner message type holding a
singular int32 field number 1. -/
def innerMD : MessageDescriptor :=
  ⟨"Inner", [⟨1, false, .int32, none⟩]⟩

/-- Schema of a message holding one singular field of message type
Inner at number 1. -/
def outerMD : MessageDescriptor :=
  ⟨"Outer", [⟨1, false, .message "Inner", none⟩]⟩

/-- Descriptor set holding outerMD and innerMD. -/
def nestDescs : Descriptors :=
  ⟨[outerMD, innerMD], []⟩

/-- Message over innerMD holding 9 in its int32 field (an existing
nested value for the merge-message claims). -/
def msgHeld : Message :=
  .mk [(1, .singular (some (.i32 9)))] []

/-- Field descriptor declaring a singular int32 with declared default
value 7 (claim C8). -/
def fdWithDefault : FieldDescriptor :=
  ⟨1, false, .int32, some (.i32 7)⟩

/-- Schema holding only fdWithDefault. -/
def mdWithDefault : MessageDescriptor :=
  ⟨"D", [fdWithDefault]⟩

/-- Field descriptor whose declared enum type name resolves to
nothing in the empty descriptor set. -/
def fdUnresolvedEnum : FieldDescriptor :=
  ⟨1, false, .enum "E", none⟩

/-- Field descriptor whose declared message type name resolves to
nothing in the empty descriptor set. -/
def fdUnresolvedMessage : FieldDescriptor :=
  ⟨2, false, .message "M", none⟩

/-- Field descriptor of the unsupported group kind. -/
def fdGroup : FieldDescriptor :=
  ⟨3, false, .group, none⟩

/-- Empty descriptor set (no message types, no enum types). -/
def emptyDescs : Descriptors :=
  ⟨[], []⟩

/-- Schema with one singular group-typed field, number 1 (claim C9). -/
def groupMD : MessageDescriptor :=
  ⟨"G", [⟨1, false, .group, none⟩]⟩

/-- Descriptor set holding only groupMD. -/
def groupDescs : Descriptors :=
  ⟨[groupMD], []⟩

/-- Body of one iteration of Message::merge_from on a non-empty
input, stated as a standalone function of the remaining fuel (used
only to reason about the loop; it restates the non-empty arm of
Message.mergeFrom literally). -/
def mergeFromStep (fuel : Nat) (descs : Descriptors) (md : MessageDescriptor)
    (m : Message) (input : List Nat) : Message × DRes Unit :=
  match readTag input with
  | .error e => (m, .err e)
  | .ok (number, wt, after) =>
    match md.fieldByNumber number with
    | some fd =>
      match Field.mergeFrom fuel descs fd ((lookupField m.fields number).getD (Field.new fd)) wt after with
      | (f1, .ok rest) => Message.mergeFrom fuel descs md (m.withField number f1) rest
      | (f1, .err e) => (m.withField number f1, .err e)
      | (f1, .diverges) => (m.withField number f1, .diverges)
      | (_, .nofuel) => (m, .nofuel)
    | none =>
      match skipValue fuel wt after with
      | .ok rest =>
        if wt = .startGroup then
          Message.mergeFrom fuel descs md m rest
        else
          Message.mergeFrom fuel descs md
            (m.addUnknown (input.take (input.length - rest.length))) rest
      | .error e => (m, .err e)

/-! Helper lemmas about the wire codec model. -/

theorem varint_roundtrip_aux (f : Nat) : ∀ s a n rest, n < 128 ^ (f + 1) →
    readVarintAux (f + 1) s a (varintEncAux (f + 1) n ++ rest) =
      .ok ((a + n * 2 ^ s) % 2 ^ 64, rest) := by
  induction f with
  | zero =>
    intro s a n rest h
    rw [pow_one] at h
    simp [varintEncAux, readVarintAux, h]
  | succ f ih =>
    intro s a n rest h
    by_cases hn : n < 128
    · simp [varintEncAux, readVarintAux, hn]
    · have hmod : (n % 128 + 128) % 128 = n % 128 := by omega
      have hdiv : n / 128 < 128 ^ (f + 1) := by
        rw [Nat.div_lt_iff_lt_mul (by norm_num)]
        calc n < 128 ^ (f + 1 + 1) := h
        _ = 128 ^ (f + 1) * 128 := by ring
      have hrec := ih (s + 7) (a + n % 128 * 2 ^ s) (n / 128) rest hdiv
      have hb : ¬(n % 128 + 128 < 128) := by omega
      have henc : varintEncAux (f + 1 + 1) n = (n % 128 + 128) :: varintEncAux (f + 1) (n / 128) := by
        rw [varintEncAux, if_neg hn]
      have hread : readVarintAux (f + 1 + 1) s a
          ((n % 128 + 128) :: (varintEncAux (f + 1) (n / 128) ++ rest)) =
          readVarintAux (f + 1) (s + 7) (a + (n % 128 + 128) % 128 * 2 ^ s)
            (varintEncAux (f + 1) (n / 128) ++ rest) := by
        rw [readVarintAux, if_neg hb]
      rw [henc, List.cons_append, hread, hmod, hrec]
      have hexp : (2 : Nat) ^ (s + 7) = 2 ^ s * 128 := by
        rw [pow_add]; norm_num
      have harith : a + n % 128 * 2 ^ s + n / 128 * 2 ^ (s + 7) = a + n * 2 ^ s := by
        calc a + n % 128 * 2 ^ s + n / 128 * 2 ^ (s + 7)
            = a + (n % 128 + 128 * (n / 128)) * 2 ^ s := by rw [hexp]; ring
        _ = a + n * 2 ^ s := by rw [Nat.mod_add_div n 128]
      rw [harith]

theorem varint_roundtrip (n : Nat) (rest : List Nat) (h : n < 2 ^ 64) :
    readRawVarint64 (varintEnc n ++ rest) = .ok (n, rest) := by
  have h10 : n < 128 ^ (9 + 1) := by
    calc n < 2 ^ 64 := h
    _ ≤ 128 ^ (9 + 1) := by norm_num
  have haux : readVarintAux 10 0 0 (varintEncAux 10 n ++ rest) =
      .ok ((0 + n * 2 ^ 0) % 2 ^ 64, rest) :=
    varint_roundtrip_aux 9 0 0 n rest h10
  rw [readRawVarint64, varintEnc, haux]
  congr 2
  simp only [pow_zero, mul_one, Nat.zero_add]
  exact Nat.mod_eq_of_lt h

theorem varint32_roundtrip (n : Nat) (rest : List Nat) (h : n < 2 ^ 32) :
    readRawVarint32 (varintEnc n ++ rest) = .ok (n, rest) := by
  have h64 := varint_roundtrip n rest (by omega)
  simp only [readRawVarint32, h64]
  congr 2
  exact Nat.mod_eq_of_lt h

theorem varint_append_aux (f : Nat) : ∀ s a l v r more,
    readVarintAux f s a l = .ok (v, r) →
    readVarintAux f s a (l ++ more) = .ok (v, r ++ more) := by
  induction f with
  | zero => intro s a l v r more h; simp [readVarintAux] at h
  | succ f ih =>
    intro s a l v r more h
    cases l with
    | nil => simp [readVarintAux] at h
    | cons b t =>
      by_cases hb : b < 128
      · simp [readVarintAux, hb] at h ⊢
        exact ⟨h.1, h.2 ▸ rfl⟩
      · simp only [readVarintAux, if_neg hb, List.cons_append] at h ⊢
        exact ih _ _ _ _ _ _ h

theorem readRawVarint64_append (l : List Nat) (v : Nat) (r more : List Nat)
    (h : readRawVarint64 l = .ok (v, r)) :
    readRawVarint64 (l ++ more) = .ok (v, r ++ more) :=
  varint_append_aux 10 0 0 l v r more h

theorem varintEnc_ne_nil (n : Nat) : varintEnc n ≠ [] := by
  rw [varintEnc, varintEncAux]
  split <;> simp

theorem le32_roundtrip (n : Nat) (rest : List Nat) (h : n < 2 ^ 32) :
    readFixed32 (le32 n ++ rest) = .ok (n, rest) := by
  simp only [le32, List.cons_append, List.nil_append, readFixed32]
  congr 2
  omega

theorem le64_roundtrip (n : Nat) (rest : List Nat) (h : n < 2 ^ 64) :
    readFixed64 (le64 n ++ rest) = .ok (n, rest) := by
  have hlo : readFixed32 (le32 (n % 4294967296) ++ (le32 (n / 4294967296) ++ rest)) =
      .ok (n % 4294967296, le32 (n / 4294967296) ++ rest) :=
    le32_roundtrip _ _ (by omega)
  have hhi : readFixed32 (le32 (n / 4294967296) ++ rest) = .ok (n / 4294967296, rest) :=
    le32_roundtrip _ _ (by omega)
  simp only [readFixed64, le64, List.append_assoc, hlo, hhi]
  congr 2
  omega

theorem readFixed32_append (l : List Nat) (v : Nat) (r more : List Nat)
    (h : readFixed32 l = .ok (v, r)) :
    readFixed32 (l ++ more) = .ok (v, r ++ more) := by
  match l with
  | [] => simp [readFixed32] at h
  | [b0] => simp [readFixed32] at h
  | [b0, b1] => simp [readFixed32] at h
  | [b0, b1, b2] => simp [readFixed32] at h
  | b0 :: b1 :: b2 :: b3 :: t =>
    simp [readFixed32] at h ⊢
    exact ⟨h.1, h.2 ▸ rfl⟩

theorem readFixed64_append (l : List Nat) (v : Nat) (r more : List Nat)
    (h : readFixed64 l = .ok (v, r)) :
    readFixed64 (l ++ more) = .ok (v, r ++ more) := by
  rw [readFixed64] at h
  cases h1 : readFixed32 l with
  | error e => simp [h1] at h
  | ok p =>
    obtain ⟨lo, r1⟩ := p
    cases h2 : readFixed32 r1 with
    | error e => simp [h1, h2] at h
    | ok q =>
      obtain ⟨hi, r2⟩ := q
      simp only [h1, h2] at h
      obtain ⟨hv, hr⟩ : lo + 4294967296 * hi = v ∧ r2 = r := by
        simpa using h
      subst hv hr
      simp only [readFixed64, readFixed32_append l lo r1 more h1,
        readFixed32_append r1 hi r2 more h2]

theorem signExtend32_lt (n : Nat) (h : n < 2 ^ 32) : signExtend32 n < 2 ^ 64 := by
  rw [signExtend32]; split <;> omega

theorem signExtend32_mod (n : Nat) (h : n < 2 ^ 32) : signExtend32 n % 2 ^ 32 = n := by
  rw [signExtend32]; split <;> omega

theorem zigzag32_lt (n : Nat) (h : n < 2 ^ 32) : zigzag32 n < 2 ^ 32 := by
  rw [zigzag32]; split <;> omega

theorem unzigzag32_zigzag32 (n : Nat) (h : n < 2 ^ 32) : unzigzag32 (zigzag32 n) = n := by
  rw [zigzag32, unzigzag32]
  split <;> split <;> omega

theorem zigzag64_lt (n : Nat) (h : n < 2 ^ 64) : zigzag64 n < 2 ^ 64 := by
  rw [zigzag64]; split <;> omega

theorem unzigzag64_zigzag64 (n : Nat) (h : n < 2 ^ 64) : unzigzag64 (zigzag64 n) = n := by
  rw [zigzag64, unzigzag64]
  split <;> split <;> omega

theorem wtCode_lt (wt : WireType) : wt.code < 8 := by
  cases wt <;> simp [WireType.code]

theorem ofCode_code (wt : WireType) : WireType.ofCode wt.code = some wt := by
  cases wt <;> rfl

theorem tag_roundtrip (n : Nat) (wt : WireType) (rest : List Nat)
    (h1 : 0 < n) (h2 : n < 2 ^ 29) :
    readTag (tagEnc n wt ++ rest) = .ok (n, wt, rest) := by
  have hc := wtCode_lt wt
  have hm : n * 8 % 2 ^ 32 = n * 8 := Nat.mod_eq_of_lt (by omega)
  have ht : n * 8 + wt.code < 2 ^ 32 := by omega
  have hd : (n * 8 + wt.code) / 8 = n := by omega
  have hmod8 : (n * 8 + wt.code) % 8 = wt.code := by omega
  have hne : ¬((n * 8 + wt.code) / 8 = 0) := by omega
  simp only [readTag, tagEnc, hm, varint32_roundtrip _ _ ht, hd, hmod8, ofCode_code,
    if_neg hne]
  rw [if_neg (show ¬(n = 0) by omega)]

/-! Helper lemmas about the sorted field map. -/

theorem lookupField_insertField_self (l : List (Nat × Field)) (n : Nat) (f : Field) :
    lookupField (insertField n f l) n = some f := by
  induction l with
  | nil => simp [insertField, lookupField]
  | cons p rest ih =>
    obtain ⟨k, g⟩ := p
    by_cases h1 : n < k
    · simp [insertField, h1, lookupField]
    · by_cases h2 : n = k
      · simp [insertField, h1, h2, lookupField]
      · simp [insertField, h1, h2, lookupField, ih]

theorem lookupField_insertField_ne (l : List (Nat × Field)) (n q : Nat) (f : Field)
    (h : q ≠ n) : lookupField (insertField n f l) q = lookupField l q := by
  induction l with
  | nil => simp [insertField, lookupField, h]
  | cons p rest ih =>
    obtain ⟨k, g⟩ := p
    rw [insertField]
    by_cases h1 : n < k
    · rw [if_pos h1]
      conv_lhs => rw [lookupField]
      rw [if_neg h]
    · rw [if_neg h1]
      by_cases h2 : n = k
      · subst h2
        rw [if_pos rfl, lookupField, lookupField, if_neg h, if_neg h]
      · rw [if_neg h2, lookupField, lookupField]
        by_cases h3 : q = k
        · rw [if_pos h3, if_pos h3]
        · rw [if_neg h3, if_neg h3, ih]

theorem insertField_insertField (l : List (Nat × Field)) (n : Nat) (f g : Field) :
    insertField n g (insertField n f l) = insertField n g l := by
  induction l with
  | nil => simp [insertField]
  | cons p rest ih =>
    obtain ⟨k, q⟩ := p
    by_cases h1 : n < k
    · simp [insertField, h1, lt_irrefl]
    · by_cases h2 : n = k
      · simp [insertField, h1, h2]
      · simp [insertField, h1, h2, ih]

theorem lookupField_foldl_insert (g : FieldDescriptor → Field) (fds : List FieldDescriptor) :
    ∀ (acc : List (Nat × Field)) (n : Nat), (∀ fd ∈ fds, fd.number ≠ n) →
    lookupField (fds.foldl (fun a fd => insertField fd.number (g fd) a) acc) n =
      lookupField acc n := by
  induction fds with
  | nil => intro acc n _; rfl
  | cons fd0 rest ih =>
    intro acc n h
    have h0 : fd0.number ≠ n := h fd0 (by simp)
    rw [List.foldl_cons, ih _ n (fun fd hm => h fd (by simp [hm])),
      lookupField_insertField_ne _ _ _ _ (fun he => h0 he.symm)]

theorem lookupField_foldl_mem (g : FieldDescriptor → Field) (fds : List FieldDescriptor) :
    ∀ (acc : List (Nat × Field)) (fd : FieldDescriptor), fd ∈ fds →
    (fds.map FieldDescriptor.number).Nodup →
    lookupField (fds.foldl (fun a fd => insertField fd.number (g fd) a) acc) fd.number =
      some (g fd) := by
  induction fds with
  | nil => intro acc fd hmem _; cases hmem
  | cons fd0 rest ih =>
    intro acc fd hmem hnodup
    rw [List.foldl_cons]
    rcases List.mem_cons.mp hmem with heq | hmem2
    · subst heq
      have hnot : ∀ fd2 ∈ rest, fd2.number ≠ fd.number := by
        intro fd2 hm2 he
        simp only [List.map_cons, List.nodup_cons] at hnodup
        exact hnodup.1 (he ▸ List.mem_map_of_mem FieldDescriptor.number hm2)
      rw [lookupField_foldl_insert g rest _ fd.number hnot]
      exact lookupField_insertField_self _ _ _
    · simp only [List.map_cons, List.nodup_cons] at hnodup
      exact ih _ fd hmem2 hnodup.2

theorem messageNew_lookup (md : MessageDescriptor) (fd : FieldDescriptor)
    (hmem : fd ∈ md.fdList) (hnodup : (md.fdList.map FieldDescriptor.number).Nodup) :
    lookupField (Message.new md).fields fd.number =
      some (if fd.isRepeated then .repeated [] else .singular fd.defaultValue) := by
  exact lookupField_foldl_mem
    (fun fd => if fd.isRepeated then Field.repeated [] else Field.singular fd.defaultValue)
    md.fdList [] fd hmem hnodup

/-! Helper lemmas about unknown-field skipping. -/

theorem skipValue_fuel_indep (wt : WireType) (hwt : wt ≠ .startGroup) (f1 f2 : Nat)
    (l : List Nat) : skipValue f1 wt l = skipValue f2 wt l := by
  cases wt
  case startGroup => exact absurd rfl hwt
  all_goals simp [skipValue]

theorem skipValue_append (wt : WireType)
    (hwt : wt = .varint ∨ wt = .fixed32 ∨ wt = .fixed64 ∨ wt = .lengthDelimited)
    (l r more : List Nat) (fl : Nat) (h : skipValue 0 wt l = .ok r) :
    skipValue fl wt (l ++ more) = .ok (r ++ more) := by
  rcases hwt with hw | hw | hw | hw <;> subst hw
  · rw [skipValue] at h
    cases hv : readRawVarint64 l with
    | error e => simp [hv] at h
    | ok p =>
      obtain ⟨v, r0⟩ := p
      simp only [hv] at h
      have hr : r0 = r := by simpa using h
      rw [← hr]
      simp only [skipValue, readRawVarint64_append l v r0 more hv]
  · rw [skipValue] at h
    cases hv : readFixed32 l with
    | error e => simp [hv] at h
    | ok p =>
      obtain ⟨v, r0⟩ := p
      simp only [hv] at h
      have hr : r0 = r := by simpa using h
      rw [← hr]
      simp only [skipValue, readFixed32_append l v r0 more hv]
  · rw [skipValue] at h
    cases hv : readFixed64 l with
    | error e => simp [hv] at h
    | ok p =>
      obtain ⟨v, r0⟩ := p
      simp only [hv] at h
      have hr : r0 = r := by simpa using h
      rw [← hr]
      simp only [skipValue, readFixed64_append l v r0 more hv]
  · rw [skipValue] at h
    cases hv : readRawVarint64 l with
    | error e => simp [hv] at h
    | ok p =>
      obtain ⟨len, r0⟩ := p
      simp only [hv] at h
      by_cases hle : len ≤ r0.length
      · rw [if_pos hle] at h
        have hr : r0.drop len = r := by simpa using h
        rw [← hr]
        simp only [skipValue, readRawVarint64_append l len r0 more hv]
        rw [if_pos (show len ≤ (r0 ++ more).length by
          simp only [List.length_append]; omega)]
        rw [List.drop_append_eq_append_drop, Nat.sub_eq_zero_of_le hle, List.drop_zero]
      · rw [if_neg hle] at h
        cases h

/-! Helper lemmas about the merge loop. -/

theorem mergeFrom_step (fuel : Nat) (descs : Descriptors) (md : MessageDescriptor)
    (m : Message) (input : List Nat) (hne : input ≠ []) :
    Message.mergeFrom (fuel + 1) descs md m input = mergeFromStep fuel descs md m input := by
  cases input with
  | nil => exact absurd rfl hne
  | cons b t => rfl

/-! Helper lemmas about the packable scalar kinds. -/

theorem readerOf_nil (k : PKind) : k.readerOf [] = .error .truncated := by
  cases k <;> rfl

theorem readerOf_encElem (k : PKind) (v : Value) (rest : List Nat)
    (h : k.okValueB v = true) : k.readerOf (k.encElem v ++ rest) = .ok (v, rest) := by
  cases k with
  | kbool =>
    cases v <;> simp [PKind.okValueB] at h
    case bool b =>
    have h64 := varint_roundtrip (if b then 1 else 0) rest (by cases b <;> norm_num)
    simp only [PKind.readerOf, PKind.encElem, readBoolV, readRawVarint32, h64]
    cases b <;> norm_num
  | kint32 =>
    cases v <;> simp [PKind.okValueB] at h
    case i32 n =>
    have h64 := varint_roundtrip (signExtend32 n) rest (signExtend32_lt n h)
    simp only [PKind.readerOf, PKind.encElem, readInt32V, readRawVarint32, h64,
      signExtend32_mod n h]
  | kint64 =>
    cases v <;> simp [PKind.okValueB] at h
    case i64 n =>
    simp only [PKind.readerOf, PKind.encElem, readInt64V, varint_roundtrip n rest h]
  | ksint32 =>
    cases v <;> simp [PKind.okValueB] at h
    case i32 n =>
    have hz := zigzag32_lt n h
    have h64 := varint_roundtrip (zigzag32 n) rest (by omega)
    simp only [PKind.readerOf, PKind.encElem, readSInt32V, readRawVarint32, h64,
      Nat.mod_eq_of_lt hz, unzigzag32_zigzag32 n h]
  | ksint64 =>
    cases v <;> simp [PKind.okValueB] at h
    case i64 n =>
    have h64 := varint_roundtrip (zigzag64 n) rest (zigzag64_lt n h)
    simp only [PKind.readerOf, PKind.encElem, readSInt64V, h64, unzigzag64_zigzag64 n h]
  | kuint32 =>
    cases v <;> simp [PKind.okValueB] at h
    case u32 n =>
    have h64 := varint_roundtrip n rest (by omega)
    simp only [PKind.readerOf, PKind.encElem, readUInt32V, readRawVarint32, h64]
    rw [Nat.mod_eq_of_lt (show n < 2 ^ 32 by omega)]
  | kuint64 =>
    cases v <;> simp [PKind.okValueB] at h
    case u64 n =>
    simp only [PKind.readerOf, PKind.encElem, readUInt64V, varint_roundtrip n rest h]
  | kfixed32 =>
    cases v <;> simp [PKind.okValueB] at h
    case u32 n =>
    simp only [PKind.readerOf, PKind.encElem, readFixed32V, le32_roundtrip n rest h]
  | kfixed64 =>
    cases v <;> simp [PKind.okValueB] at h
    case u64 n =>
    simp only [PKind.readerOf, PKind.encElem, readFixed64V, le64_roundtrip n rest h]
  | ksfixed32 =>
    cases v <;> simp [PKind.okValueB] at h
    case i32 n =>
    simp only [PKind.readerOf, PKind.encElem, readSFixed32V, le32_roundtrip n rest h]
  | ksfixed64 =>
    cases v <;> simp [PKind.okValueB] at h
    case i64 n =>
    simp only [PKind.readerOf, PKind.encElem, readSFixed64V, le64_roundtrip n rest h]
  | kfloat =>
    cases v <;> simp [PKind.okValueB] at h
    case f32 n =>
    simp only [PKind.readerOf, PKind.encElem, readFloatV, le32_roundtrip n rest h]
  | kdouble =>
    cases v <;> simp [PKind.okValueB] at h
    case f64 n =>
    simp only [PKind.readerOf, PKind.encElem, readDoubleV, le64_roundtrip n rest h]

theorem putAll_repeated (r vs : List Value) :
    putAll (.repeated r) vs = .repeated (r ++ vs) := by
  induction vs generalizing r with
  | nil => simp [putAll]
  | cons v t ih =>
    show putAll (Field.put (.repeated r) v) t = _
    rw [Field.put, ih]
    simp

theorem packedLoop_ok (k : PKind) (vs : List Value) : ∀ (f : Field) (fuel : Nat),
    (∀ v ∈ vs, k.okValueB v = true) → vs.length < fuel →
    packedLoop k.readerOf fuel f (concatEnc k vs) = (putAll f vs, .ok ()) := by
  induction vs with
  | nil =>
    intro f fuel _ hf
    cases fuel with
    | zero => omega
    | succ fl => simp [concatEnc, packedLoop, putAll]
  | cons v t ih =>
    intro f fuel h hf
    cases fuel with
    | zero => omega
    | succ fl =>
      have hv := h v (by simp)
      have hrt := readerOf_encElem k v (concatEnc k t) hv
      cases hl : k.encElem v ++ concatEnc k t with
      | nil =>
        rw [hl, readerOf_nil] at hrt
        cases hrt
      | cons b bs =>
        rw [hl] at hrt
        have hloop : packedLoop k.readerOf (fl + 1) f (b :: bs) =
            packedLoop k.readerOf fl (f.put v) (concatEnc k t) := by
          simp only [packedLoop, hrt]
        rw [concatEnc, hl, hloop, ih (f.put v) fl (fun w hw => h w (by simp [hw])) (by
          simp at hf; omega)]
        rw [putAll, putAll, List.foldl_cons]

theorem fieldMergeFrom_packable (k : PKind) (fuel : Nat) (descs : Descriptors)
    (fd : FieldDescriptor) (htyp : fd.typ = k.ft) (f : Field) (wt : WireType)
    (input : List Nat) :
    Field.mergeFrom (fuel + 1) descs fd f wt input =
      mergePackableScalar fuel k.readerOf k.wt f wt input := by
  cases k <;>
    simp [Field.mergeFrom, fieldType, htyp, PKind.ft, PKind.readerOf, PKind.wt]

theorem pkindWt_ne_len (k : PKind) : k.wt ≠ .lengthDelimited := by
  cases k <;> simp [PKind.wt]

theorem mergePackableScalar_unpacked_elem (k : PKind) (fuel : Nat) (f : Field)
    (v : Value) (rest : List Nat) (h : k.okValueB v = true) :
    mergePackableScalar fuel k.readerOf k.wt f k.wt (k.encElem v ++ rest) =
      (f.put v, .ok rest) := by
  rw [mergePackableScalar, if_neg (pkindWt_ne_len k), mergeScalar, if_pos rfl,
    readerOf_encElem k v rest h]

theorem mergePackableScalar_packed (k : PKind) (fuel : Nat) (f : Field)
    (vs : List Value) (hok : ∀ v ∈ vs, k.okValueB v = true)
    (hfuel : vs.length < fuel) (hlen : (concatEnc k vs).length < 2 ^ 64) :
    mergePackableScalar fuel k.readerOf k.wt f .lengthDelimited
        (varintEnc (concatEnc k vs).length ++ concatEnc k vs) =
      (putAll f vs, .ok []) := by
  rw [mergePackableScalar, if_pos rfl]
  have hv := varint_roundtrip (concatEnc k vs).length (concatEnc k vs) hlen
  simp only [hv, le_refl, if_pos, List.take_length, List.drop_length,
    packedLoop_ok k vs f fuel hok hfuel]

theorem mergeFrom_nil (fuel : Nat) (descs : Descriptors) (md : MessageDescriptor)
    (m : Message) : Message.mergeFrom (fuel + 1) descs md m [] = (m, .ok ()) := rfl

theorem mergeFrom_packed (k : PKind) (descs : Descriptors) (md : MessageDescriptor)
    (fd : FieldDescriptor) (m : Message) (n : Nat) (vs vs0 : List Value)
    (hfd : md.fieldByNumber n = some fd) (htyp : fd.typ = k.ft)
    (hn1 : 0 < n) (hn2 : n < 2 ^ 29)
    (hlook : lookupField m.fields n = some (.repeated vs0))
    (hok : ∀ v ∈ vs, k.okValueB v = true)
    (hlen : (concatEnc k vs).length < 2 ^ 64) :
    Message.mergeFrom (vs.length + 3) descs md m (packedEnc k n vs) =
      (m.withField n (.repeated (vs0 ++ vs)), .ok ()) := by
  have hne : packedEnc k n vs ≠ [] := by
    rw [packedEnc, tagEnc]
    intro hcon
    exact varintEnc_ne_nil _ (List.append_eq_nil.mp hcon).1
  have htag := tag_roundtrip n .lengthDelimited
    (varintEnc (concatEnc k vs).length ++ concatEnc k vs) hn1 hn2
  have hdisp := fieldMergeFrom_packable k (vs.length + 1) descs fd htyp
  have hpk := mergePackableScalar_packed k (vs.length + 1) (Field.repeated vs0) vs hok
    (by omega) hlen
  rw [show vs.length + 3 = (vs.length + 1 + 1) + 1 by omega, mergeFrom_step _ _ _ _ _ hne,
    mergeFromStep, packedEnc]
  simp only [htag, hfd, hlook, Option.getD_some, hdisp, hpk, putAll_repeated,
    mergeFrom_nil]

theorem mergeFrom_unpacked (k : PKind) (descs : Descriptors) (md : MessageDescriptor)
    (fd : FieldDescriptor) (n : Nat) (vs : List Value)
    (hfd : md.fieldByNumber n = some fd) (htyp : fd.typ = k.ft)
    (hn1 : 0 < n) (hn2 : n < 2 ^ 29)
    (hok : ∀ v ∈ vs, k.okValueB v = true) :
    ∀ (fuel : Nat) (m : Message) (vs0 : List Value),
    vs.length + 1 ≤ fuel →
    lookupField m.fields n = some (.repeated vs0) →
    ∃ m1, Message.mergeFrom fuel descs md m (unpackedEnc k n vs) = (m1, .ok ()) ∧
      lookupField m1.fields n = some (.repeated (vs0 ++ vs)) := by
  induction vs with
  | nil =>
    intro fuel m vs0 hfuel hlook
    cases fuel with
    | zero => omega
    | succ fl =>
      refine ⟨m, ?_, ?_⟩
      · rw [unpackedEnc, Message.mergeFrom]
      · rw [List.append_nil, hlook]
  | cons v t ih =>
    intro fuel m vs0 hfuel hlook
    cases fuel with
    | zero => omega
    | succ fl =>
      have hne : unpackedEnc k n (v :: t) ≠ [] := by
        rw [unpackedEnc, tagEnc]
        intro hcon
        exact varintEnc_ne_nil _ (List.append_eq_nil.mp hcon).1
      have hv := hok v (by simp)
      cases fl with
      | zero => simp at hfuel
      | succ fl2 =>
        have htag := tag_roundtrip n k.wt (k.encElem v ++ unpackedEnc k n t) hn1 hn2
        have hdisp := fieldMergeFrom_packable k fl2 descs fd htyp
        have helem := mergePackableScalar_unpacked_elem k fl2 (Field.repeated vs0) v
          (unpackedEnc k n t) hv
        have hlook2 : lookupField (m.withField n (.repeated (vs0 ++ [v]))).fields n =
            some (.repeated (vs0 ++ [v])) := by
          rw [Message.withField]
          exact lookupField_insertField_self _ _ _
        obtain ⟨m1, hm1, hl1⟩ := ih (fun w hw => hok w (by simp [hw])) (fl2 + 1)
          (m.withField n (.repeated (vs0 ++ [v]))) (vs0 ++ [v])
          (by simp at hfuel ⊢; omega) hlook2
        refine ⟨m1, ?_, ?_⟩
        · rw [mergeFrom_step _ _ _ _ _ hne, mergeFromStep, unpackedEnc]
          simp only [htag, hfd, hlook, Option.getD_some, hdisp, helem]
          rw [show (Field.put (.repeated vs0) v) = .repeated (vs0 ++ [v]) from rfl]
          exact hm1
        · rw [hl1]
          simp

/-! Helper lemmas about the ascending-key invariant of the field map. -/

theorem insertField_keys_mem (n : Nat) (f : Field) (l : List (Nat × Field)) :
    ∀ x ∈ (insertField n f l).map Prod.fst, x = n ∨ x ∈ l.map Prod.fst := by
  induction l with
  | nil => simp [insertField]
  | cons p rest ih =>
    obtain ⟨k, g⟩ := p
    intro x hx
    rw [insertField] at hx
    by_cases h1 : n < k
    · rw [if_pos h1, List.map_cons, List.mem_cons] at hx
      rcases hx with rfl | hx2
      · exact Or.inl rfl
      · exact Or.inr hx2
    · rw [if_neg h1] at hx
      by_cases h2 : n = k
      · rw [if_pos h2, List.map_cons, List.mem_cons] at hx
        rcases hx with rfl | hx2
        · exact Or.inl rfl
        · right
          rw [List.map_cons, List.mem_cons]
          exact Or.inr hx2
      · rw [if_neg h2, List.map_cons, List.mem_cons] at hx
        rcases hx with rfl | hx2
        · right
          rw [List.map_cons, List.mem_cons]
          exact Or.inl rfl
        · rcases ih x hx2 with hx3 | hx3
          · exact Or.inl hx3
          · right
            rw [List.map_cons, List.mem_cons]
            exact Or.inr hx3

theorem insertField_sorted (n : Nat) (f : Field) (l : List (Nat × Field))
    (h : List.Pairwise (· < ·) (l.map Prod.fst)) :
    List.Pairwise (· < ·) ((insertField n f l).map Prod.fst) := by
  induction l with
  | nil => simp [insertField]
  | cons p rest ih =>
    obtain ⟨k, g⟩ := p
    simp only [List.map_cons, List.pairwise_cons] at h
    rw [insertField]
    by_cases h1 : n < k
    · rw [if_pos h1]
      simp only [List.map_cons, List.pairwise_cons]
      refine ⟨?_, h.1, h.2⟩
      intro b hb
      rw [List.mem_cons] at hb
      rcases hb with rfl | hb1
      · exact h1
      · exact lt_trans h1 (h.1 b hb1)
    · rw [if_neg h1]
      by_cases h2 : n = k
      · rw [if_pos h2]
        subst h2
        simp only [List.map_cons, List.pairwise_cons]
        exact ⟨h.1, h.2⟩
      · rw [if_neg h2]
        simp only [List.map_cons, List.pairwise_cons]
        refine ⟨?_, ih h.2⟩
        intro b hb
        rcases insertField_keys_mem n f rest b hb with hb1 | hb1
        · omega
        · exact h.1 b hb1

theorem messageNew_sorted_aux (g : FieldDescriptor → Field) (fds : List FieldDescriptor) :
    ∀ acc : List (Nat × Field), List.Pairwise (· < ·) (acc.map Prod.fst) →
    List.Pairwise (· < ·)
      ((fds.foldl (fun a fd => insertField fd.number (g fd) a) acc).map Prod.fst) := by
  induction fds with
  | nil => intro acc hacc; exact hacc
  | cons fd0 rest ih =>
    intro acc hacc
    rw [List.foldl_cons]
    exact ih _ (insertField_sorted fd0.number (g fd0) acc hacc)

theorem messageNew_sorted (md : MessageDescriptor) :
    List.Pairwise (· < ·) ((Message.new md).fields.map Prod.fst) := by
  exact messageNew_sorted_aux
    (fun fd => if fd.isRepeated then Field.repeated [] else Field.singular fd.defaultValue)
    md.fdList [] (by simp)

/-! Claim theorems. -/

/-- Claim C1, refuted at a concrete input (the code loses data): the
message over the repeated-bytes schema holding the single, type-valid
element Bytes [] encodes via write_to_bytes to zero bytes (the Bytes
write arm checks only emptiness and ignores the repeated-element
flag), so decoding the produced bytes into a fresh Message of the same
schema yields an empty repeated field; the element is dropped by the
round trip even though it is not a singular scalar default.  The claim
asserts field-for-field equality for every type-valid population;
Repeated [] differs from Repeated [Bytes []]. -/
theorem claim_c1_roundtrip_loses_repeated_empty_bytes :
    msgRepEmptyBytes.writeToBytes = [] ∧
    Message.mergeFrom 9 bytesRepDescs bytesRepMD (Message.new bytesRepMD)
        msgRepEmptyBytes.writeToBytes = (.mk [(1, .repeated [])] [], .ok ()) ∧
    lookupField msgRepEmptyBytes.fields 1 = some (.repeated [.bytes []]) ∧
    Field.repeated ([] : List Value) ≠ .repeated [.bytes []] := by
  refine ⟨rfl, rfl, rfl, ?_⟩
  simp

/-- Claim C2, refuted at concrete inputs (the code's size and write
passes disagree): a singular bytes field holding the empty byte string
is sized at 2 bytes by compute_size (bytes_size has no emptiness
check) yet write_to emits nothing for it; and a singular
message-typed field contributes only the nested payload size (2) to
compute_size, while write_to emits tag + length prefix + payload (4
bytes).  The deterministic half of the claim (compute_size twice gives
the same integer) does hold, compute_size being pure, but the written
byte count differs from the computed size. -/
theorem claim_c2_size_write_mismatch :
    Message.computeSize msgSingEmptyBytes = 2 ∧
    msgSingEmptyBytes.writeToBytes = [] ∧
    Message.computeSize msgNested = 2 ∧
    msgNested.writeToBytes = [18, 2, 8, 5] ∧
    Message.computeSize msgNested ≠ msgNested.writeToBytes.length := by
  exact ⟨by decide, rfl, by decide, rfl, by decide⟩

/-- Claim C3, refuted at concrete inputs (repeated elements are
omitted or altered): a repeated bytes field holding one empty element
is sized at 2 bytes but written as nothing (the Bytes write arm lacks
the repeated-element override), and a repeated bool field holding
[false] is sized at 0 but written as a tag+value entry carrying the
literal true (the Bool write arm writes true whenever it writes). -/
theorem claim_c3_repeated_element_omitted :
    Field.sizeWithTag 1 (.repeated [.bytes []]) = 2 ∧
    Field.writeToWithTag 1 false (.repeated [.bytes []]) = [] ∧
    Field.sizeWithTag 1 (.repeated [.bool false]) = 0 ∧
    Field.writeToWithTag 1 false (.repeated [.bool false]) = [8, 1] := by
  exact ⟨by decide, rfl, by decide, rfl⟩

/-- Claim C4, counterexample: with a schema declaring field 1 as int32
and the input encoding field 1 with the length-delimited wire type
(tag byte 10, length 1, payload 42), merge_from does not return a
bad-wire-type error; merge_packable_scalar treats the payload as a
packed run and the call succeeds, storing I32 42. -/
theorem claim_c4_counterexample :
    Message.mergeFrom 9 i32Descs i32MD (Message.new i32MD) [10, 1, 42] =
      (.mk [(1, .singular (some (.i32 42)))] [], .ok ()) := rfl

/-- Claim C4, amended: given a schema declaring field 1 as int32 and
an input that encodes field 1 with the fixed32 wire type (tag byte
13), merge_from returns a bad-wire-type error and the call aborts with
the message unmutated, whatever bytes follow the tag; the
length-delimited wire type is instead accepted as a packed run. -/
theorem claim_c4_amended (rest : List Nat) :
    Message.mergeFrom 9 i32Descs i32MD (Message.new i32MD) (13 :: rest) =
      (Message.new i32MD, .err (.badWireType .fixed32)) := rfl

/-- Claim C8, counterexample: Field::new of a singular int32 field
descriptor that declares default value 7 yields the empty singular
field, not the declared default. -/
theorem claim_c8_counterexample :
    Field.new fdWithDefault = .singular none ∧
    Field.new fdWithDefault ≠ .singular (some (.i32 7)) := by
  refine ⟨rfl, ?_⟩
  simp [Field.new, fdWithDefault]

/-- Claim C8, amended: a field materialized by Message::new matches
the schema's cardinality and starts at the schema's declared default
value (or absent if none declared), but a field created by Field::new,
while matching the cardinality, always starts absent when singular,
even when the schema declares a default. -/
theorem claim_c8_amended (fd : FieldDescriptor) (md : MessageDescriptor)
    (hmem : fd ∈ md.fdList) (hnodup : (md.fdList.map FieldDescriptor.number).Nodup) :
    Field.new fd = (if fd.isRepeated then .repeated [] else .singular none) ∧
    lookupField (Message.new md).fields fd.number =
      some (if fd.isRepeated then .repeated [] else .singular fd.defaultValue) :=
  ⟨rfl, messageNew_lookup md fd hmem hnodup⟩

/-- Claim C8, witness for the amended claim at the concrete descriptor
with declared default 7. -/
theorem claim_c8_amended_witness :
    Field.new fdWithDefault =
      (if fdWithDefault.isRepeated then .repeated [] else .singular none) ∧
    lookupField (Message.new mdWithDefault).fields fdWithDefault.number =
      some (if fdWithDefault.isRepeated then .repeated []
        else .singular fdWithDefault.defaultValue) :=
  claim_c8_amended fdWithDefault mdWithDefault (List.mem_singleton.mpr rfl) (by decide)

/-- Claim C9, counterexample: merging a value for a group-typed field
does not yield a typed error result; the source hits unimplemented!
(modelled as the diverges outcome), which is neither a success nor a
typed error, so decode has a third outcome. -/
theorem claim_c9_counterexample :
    Message.mergeFrom 9 groupDescs groupMD (Message.new groupMD) [8, 1] =
      (.mk [(1, .singular none)] [], .diverges) ∧
    (DRes.diverges : DRes Unit) ≠ .ok () := by
  refine ⟨rfl, ?_⟩
  simp

/-- Claim C9, amended: merging a value for a field whose resolved type
is an unresolved enum or message reference yields the corresponding
typed error (UnknownEnum / UnknownMessage) with the field unchanged,
for every wire type and input; merging a value for a group-typed field
panics (unimplemented!) instead of returning a typed error. -/
theorem claim_c9_amended (fuel : Nat) (f : Field) (wt : WireType) (input : List Nat) :
    Field.mergeFrom (fuel + 1) emptyDescs fdUnresolvedEnum f wt input =
      (f, .err (.unknownEnum "E")) ∧
    Field.mergeFrom (fuel + 1) emptyDescs fdUnresolvedMessage f wt input =
      (f, .err (.unknownMessage "M")) ∧
    Field.mergeFrom (fuel + 1) emptyDescs fdGroup f wt input = (f, .diverges) := by
  refine ⟨?_, ?_, ?_⟩ <;>
    simp [Field.mergeFrom, fieldType, fdUnresolvedEnum, fdUnresolvedMessage, fdGroup,
      emptyDescs]

/-- Claim C5: for every packable scalar kind, field number, and list
of type-valid values, the packed encoding (one length-delimited run
bounded to its declared byte length and decoded one scalar at a time
until the bound is exhausted exactly) and the unpacked encoding (one
tag+value entry per element) decode via merge_from to the identical
ordered sequence of Values appended to the repeated field. -/
theorem claim_c5_packed_unpacked_interop (k : PKind) (descs : Descriptors)
    (md : MessageDescriptor) (fd : FieldDescriptor) (m : Message) (n : Nat)
    (vs vs0 : List Value)
    (hfd : md.fieldByNumber n = some fd) (htyp : fd.typ = k.ft)
    (hn1 : 0 < n) (hn2 : n < 2 ^ 29)
    (hlook : lookupField m.fields n = some (.repeated vs0))
    (hok : ∀ v ∈ vs, k.okValueB v = true)
    (hlen : (concatEnc k vs).length < 2 ^ 64) :
    (∃ m1, Message.mergeFrom (vs.length + 3) descs md m (packedEnc k n vs) =
        (m1, .ok ()) ∧
      lookupField m1.fields n = some (.repeated (vs0 ++ vs))) ∧
    (∃ m2, Message.mergeFrom (vs.length + 3) descs md m (unpackedEnc k n vs) =
        (m2, .ok ()) ∧
      lookupField m2.fields n = some (.repeated (vs0 ++ vs))) := by
  constructor
  · refine ⟨m.withField n (.repeated (vs0 ++ vs)),
      mergeFrom_packed k descs md fd m n vs vs0 hfd htyp hn1 hn2 hlook hok hlen, ?_⟩
    rw [Message.withField]
    exact lookupField_insertField_self _ _ _
  · exact mergeFrom_unpacked k descs md fd n vs hfd htyp hn1 hn2 hok (vs.length + 3)
      m vs0 (by omega) hlook

/-- Claim C5, witness: a repeated int32 field receives the values 1
and 300 identically from the packed run and from per-element entries. -/
theorem claim_c5_witness :
    (∃ m1, Message.mergeFrom ([Value.i32 1, Value.i32 300].length + 3) i32RepDescs
        i32RepMD (Message.new i32RepMD) (packedEnc .kint32 1 [Value.i32 1, Value.i32 300]) =
        (m1, .ok ()) ∧
      lookupField m1.fields 1 = some (.repeated ([] ++ [Value.i32 1, Value.i32 300]))) ∧
    (∃ m2, Message.mergeFrom ([Value.i32 1, Value.i32 300].length + 3) i32RepDescs
        i32RepMD (Message.new i32RepMD) (unpackedEnc .kint32 1 [Value.i32 1, Value.i32 300]) =
        (m2, .ok ()) ∧
      lookupField m2.fields 1 = some (.repeated ([] ++ [Value.i32 1, Value.i32 300]))) :=
  claim_c5_packed_unpacked_interop .kint32 i32RepDescs i32RepMD ⟨1, true, .int32, none⟩
    (Message.new i32RepMD) 1 [Value.i32 1, Value.i32 300] [] rfl rfl (by decide) (by decide)
    rfl (by decide) (by decide)

/-- Claim C6: decoding a region that carries a field number absent
from the schema appends exactly those region bytes, verbatim, to the
unknown-field buffer and continues the loop (so multiple regions
accumulate in encounter order); the known-field map is untouched and
keeps its strictly ascending key order (the order Message::new
establishes, see messageNew_sorted, and insertion preserves); and
re-encoding emits the known fields first, in map (ascending) order,
followed by the unknown bytes verbatim. -/
theorem claim_c6_unknown_preservation (descs : Descriptors) (md : MessageDescriptor)
    (m : Message) (n : Nat) (wt : WireType) (valBytes more : List Nat) (fuel : Nat)
    (hfd : md.fieldByNumber n = none) (hn1 : 0 < n) (hn2 : n < 2 ^ 29)
    (hwt : wt = .varint ∨ wt = .fixed32 ∨ wt = .fixed64 ∨ wt = .lengthDelimited)
    (hskip : skipValue 0 wt valBytes = .ok [])
    (hsorted : List.Pairwise (· < ·) (m.fields.map Prod.fst)) :
    Message.mergeFrom (fuel + 1) descs md m (tagEnc n wt ++ (valBytes ++ more)) =
        Message.mergeFrom fuel descs md (m.addUnknown (tagEnc n wt ++ valBytes)) more ∧
      (m.addUnknown (tagEnc n wt ++ valBytes)).fields = m.fields ∧
      List.Pairwise (· < ·) ((m.addUnknown (tagEnc n wt ++ valBytes)).fields.map Prod.fst) ∧
      (m.addUnknown (tagEnc n wt ++ valBytes)).writeToBytes =
        fieldListWrite m.fields ++ (m.unknown ++ (tagEnc n wt ++ valBytes)) := by
  have hne : tagEnc n wt ++ (valBytes ++ more) ≠ [] := by
    intro hcon
    exact varintEnc_ne_nil _ (List.append_eq_nil.mp hcon).1
  have hsg : wt ≠ .startGroup := by
    rcases hwt with rfl | rfl | rfl | rfl <;> simp
  have hskipm : skipValue fuel wt (valBytes ++ more) = .ok more := by
    have hap := skipValue_append wt hwt valBytes [] more fuel hskip
    simpa using hap
  have htag := tag_roundtrip n wt (valBytes ++ more) hn1 hn2
  refine ⟨?_, rfl, hsorted, rfl⟩
  rw [mergeFrom_step _ _ _ _ _ hne, mergeFromStep]
  simp only [htag, hfd, hskipm, if_neg hsg]
  have htake : (tagEnc n wt ++ (valBytes ++ more)).take
      ((tagEnc n wt ++ (valBytes ++ more)).length - more.length) =
      tagEnc n wt ++ valBytes := by
    rw [← List.append_assoc]
    have hlen2 : ((tagEnc n wt ++ valBytes) ++ more).length - more.length =
        (tagEnc n wt ++ valBytes).length := by
      simp only [List.length_append]
      omega
    rw [hlen2, List.take_left]
  rw [htake]

/-- Claim C6, witness: a length-delimited region for field number 7,
absent from the int32-only schema, is preserved verbatim and written
after the known field. -/
theorem claim_c6_witness :
    Message.mergeFrom (3 + 1) i32Descs i32MD msgI32Five
        (tagEnc 7 .lengthDelimited ++ ([2, 97, 98] ++ [])) =
        Message.mergeFrom 3 i32Descs i32MD
          (msgI32Five.addUnknown (tagEnc 7 .lengthDelimited ++ [2, 97, 98])) [] ∧
      (msgI32Five.addUnknown (tagEnc 7 .lengthDelimited ++ [2, 97, 98])).fields =
        msgI32Five.fields ∧
      List.Pairwise (· < ·)
        ((msgI32Five.addUnknown
          (tagEnc 7 .lengthDelimited ++ [2, 97, 98])).fields.map Prod.fst) ∧
      (msgI32Five.addUnknown (tagEnc 7 .lengthDelimited ++ [2, 97, 98])).writeToBytes =
        fieldListWrite msgI32Five.fields ++
          (msgI32Five.unknown ++ (tagEnc 7 .lengthDelimited ++ [2, 97, 98])) :=
  claim_c6_unknown_preservation i32Descs i32MD msgI32Five 7 .lengthDelimited
    [2, 97, 98] [] 3 rfl (by decide) (by decide) (Or.inr (Or.inr (Or.inr rfl))) rfl
    (by decide)

/-- Claim C7: merging a length-delimited payload into a message-typed
field merges into the existing nested Message when the singular slot
already holds one (the result is the recursive merge into that
instance), and otherwise creates a fresh Message from the nested
schema (for an empty singular slot, a singular slot holding a value
of non-Message kind, and per element of a repeated field, which
appends); any wire type other than length-delimited yields a
bad-wire-type error with the field unchanged. -/
theorem claim_c7_merge_message (descs : Descriptors) (md : MessageDescriptor)
    (m0 m1 mf : Message) (run rest : List Nat) (vs : List Value) (fuel : Nat)
    (hL : run.length < 2 ^ 64)
    (h1 : Message.mergeFrom fuel descs md m0 run = (m1, .ok ()))
    (h2 : Message.mergeFrom fuel descs md (Message.new md) run = (mf, .ok ())) :
    Field.mergeMessage (fuel + 1) descs md (.singular (some (.message m0)))
        .lengthDelimited (varintEnc run.length ++ (run ++ rest)) =
      (.singular (some (.message m1)), .ok rest) ∧
    Field.mergeMessage (fuel + 1) descs md (.singular none)
        .lengthDelimited (varintEnc run.length ++ (run ++ rest)) =
      (.singular (some (.message mf)), .ok rest) ∧
    (∀ v : Value, v.isMessage = false →
      Field.mergeMessage (fuel + 1) descs md (.singular (some v))
          .lengthDelimited (varintEnc run.length ++ (run ++ rest)) =
        (.singular (some (.message mf)), .ok rest)) ∧
    Field.mergeMessage (fuel + 1) descs md (.repeated vs)
        .lengthDelimited (varintEnc run.length ++ (run ++ rest)) =
      (.repeated (vs ++ [.message mf]), .ok rest) ∧
    (∀ (wt : WireType) (f : Field) (input : List Nat), wt ≠ .lengthDelimited →
      Field.mergeMessage (fuel + 1) descs md f wt input =
        (f, .err (.badWireType wt))) := by
  have hvar := varint_roundtrip run.length (run ++ rest) hL
  have htake : (run ++ rest).take run.length = run := List.take_left run rest
  have hdrop : (run ++ rest).drop run.length = rest := List.drop_left run rest
  have hle : run.length ≤ (run ++ rest).length := by
    simp [List.length_append]
  refine ⟨?_, ?_, ?_, ?_, ?_⟩
  · simp only [Field.mergeMessage, if_pos rfl, if_true, hvar, if_pos hle, htake, hdrop,
      h1, Field.put]
  · simp only [Field.mergeMessage, if_pos rfl, if_true, hvar, if_pos hle, htake, hdrop,
      h2, Field.put]
  · intro v hv
    cases v <;> simp [Value.isMessage] at hv <;>
      simp only [Field.mergeMessage, if_pos rfl, if_true, hvar, if_pos hle, htake, hdrop,
        h2, Field.put]
  · simp only [Field.mergeMessage, if_pos rfl, if_true, hvar, if_pos hle, htake, hdrop,
      h2, Field.put]
  · intro wt f input hwt
    simp only [Field.mergeMessage, if_neg hwt]

/-- Claim C7, witness: merging the two-byte payload that sets the int32
field to 5 merges into the held instance (value 9 replaced by 5) when
one is held, seeds a fresh instance otherwise, and a varint wire type
is a bad-wire-type error. -/
theorem claim_c7_witness :
    Field.mergeMessage (9 + 1) nestDescs innerMD (.singular (some (.message msgHeld)))
        .lengthDelimited (varintEnc ([8, 5] : List Nat).length ++ ([8, 5] ++ [])) =
      (.singular (some (.message msgI32Five)), .ok []) ∧
    Field.mergeMessage (9 + 1) nestDescs innerMD (.singular none)
        .lengthDelimited (varintEnc ([8, 5] : List Nat).length ++ ([8, 5] ++ [])) =
      (.singular (some (.message msgI32Five)), .ok []) ∧
    (∀ v : Value, v.isMessage = false →
      Field.mergeMessage (9 + 1) nestDescs innerMD (.singular (some v))
          .lengthDelimited (varintEnc ([8, 5] : List Nat).length ++ ([8, 5] ++ [])) =
        (.singular (some (.message msgI32Five)), .ok [])) ∧
    Field.mergeMessage (9 + 1) nestDescs innerMD (.repeated [])
        .lengthDelimited (varintEnc ([8, 5] : List Nat).length ++ ([8, 5] ++ [])) =
      (.repeated ([] ++ [.message msgI32Five]), .ok []) ∧
    (∀ (wt : WireType) (f : Field) (input : List Nat), wt ≠ .lengthDelimited →
      Field.mergeMessage (9 + 1) nestDescs innerMD f wt input =
        (f, .err (.badWireType wt))) :=
  claim_c7_merge_message nestDescs innerMD msgHeld msgI32Five msgI32Five [8, 5] [] [] 9
    (by decide) rfl rfl

/-- Claim C10: when a singular message-typed field holds a nested
Message and the recursive merge of a length-delimited payload fails,
the error is propagated and the field is left empty (Singular None):
the slot was taken before the recursive merge and the put that would
restore it never runs, so the previously held instance, including any
fields merged into it before the error, is discarded. -/
theorem claim_c10_error_discards_field (descs : Descriptors) (md : MessageDescriptor)
    (m0 m2 : Message) (e : Err) (run rest : List Nat) (fuel : Nat)
    (hL : run.length < 2 ^ 64)
    (h1 : Message.mergeFrom fuel descs md m0 run = (m2, .err e)) :
    Field.mergeMessage (fuel + 1) descs md (.singular (some (.message m0)))
        .lengthDelimited (varintEnc run.length ++ (run ++ rest)) =
      (.singular none, .err e) := by
  have hvar := varint_roundtrip run.length (run ++ rest) hL
  have htake : (run ++ rest).take run.length = run := List.take_left run rest
  have hle : run.length ≤ (run ++ rest).length := by
    simp [List.length_append]
  simp only [Field.mergeMessage, if_pos rfl, if_true, hvar, if_pos hle, htake, h1]

/-- Claim C10, witness: a truncated payload (the lone continuation
byte 128) makes the recursive merge fail, and the field that held a
nested message with value 9 is left empty. -/
theorem claim_c10_witness :
    Field.mergeMessage (9 + 1) nestDescs innerMD (.singular (some (.message msgHeld)))
        .lengthDelimited (varintEnc ([128] : List Nat).length ++ ([128] ++ [])) =
      (.singular none, .err .truncated) :=
  claim_c10_error_discards_field nestDescs innerMD msgHeld msgHeld .truncated [128] [] 9
    (by decide) rfl

end SerdeProto
